import Mathlib

/-!
# Verification of the `rust-static-error-analyzer` core

Shallow embedding, in Lean 4, of the core data model and algorithms of the
`rust-static-error-analyzer` repository:

* `src/graph.rs` — the `CallGraph` / `ChainGraph` arena-indexed graph types,
  their `PartialEq` implementations, and the `dot::GraphWalk` accessors;
* `src/analysis/calls_to_chains.rs` — error-propagation chain extraction
  (`to_chains`, `get_chain_from_edge`) with its aggregate statistics;
* `src/analysis/create_graph.rs` — the HIR walk that discovers function calls
  (`get_function_calls_in_block`, `get_function_calls_in_expression`,
  `get_function_calls_in_pattern`) and the call-graph construction
  (`add_calls_from_function`, `add_calls_from_block`,
  `create_call_graph_from_root`);
* `src/analysis/types.rs` — the return-type classifier (`get_error_or_type`,
  `extract_result`, `extract_result_from_future`, `extract_error_from_result`);
* `src/analysis/mod.rs` — the annotation and edge-filter passes of `analyze`.

Machine integers (`usize`) are modelled as `Nat` (the programs manipulated are
small in all claims; no overflow behaviour is relied upon).  Compiler handles
(`HirId`, `DefId`) are opaque identifiers and are modelled as `Nat`.  The
`rustc` compiler context (`TyCtxt`) is out of scope of the repository and is
modelled as an explicit record of the queries the code performs on it.
Recursions whose termination rests on runtime state (graph growth, visited
sets) are given an explicit fuel parameter and return `Option`: `none` models
only fuel exhaustion, never a behaviour of the source; every `some` result is
the faithful result of the Rust code.
-/

namespace StaticAnalyzer

/-- Identifier of a HIR node (`rustc_hir::HirId`), abstracted to `Nat`. -/
abbrev HirId := Nat

/-- Identifier of a definition (`rustc_hir::def_id::DefId`), abstracted to `Nat`. -/
abbrev DefId := Nat

/-- `CallNodeKind` from `src/graph.rs`: a node is a local function (body
available; identified by `DefId` and `HirId`) or a non-local function
(identified by `DefId` only).  `src/analysis/create_graph.rs` imports this
type under the name `NodeKind`. -/
inductive CallNodeKind where
  | localFn (def_id : DefId) (hir_id : HirId)
  | nonLocalFn (def_id : DefId)
deriving DecidableEq, Repr

/-- `CallNodeKind::local_fn`. -/
def CallNodeKind.local_fn (def_id : DefId) (hir_id : HirId) : CallNodeKind :=
  .localFn def_id hir_id

/-- `CallNodeKind::non_local_fn`. -/
def CallNodeKind.non_local_fn (id : DefId) : CallNodeKind :=
  .nonLocalFn id

/-- `CallNodeKind::def_id`. -/
def CallNodeKind.def_id : CallNodeKind → DefId
  | .localFn d _ => d
  | .nonLocalFn d => d

/-- `CallNode` from `src/graph.rs`. -/
structure CallNode where
  id : Nat
  label : String
  kind : CallNodeKind
  panics : Bool
deriving DecidableEq, Repr

instance : Inhabited CallNode := ⟨⟨0, "", .nonLocalFn 0, false⟩⟩

/-- `CallNode::new` from `src/graph.rs`: `panics` starts out `false`. -/
def CallNode.new (node_id : Nat) (label : String) (node_type : CallNodeKind) : CallNode :=
  ⟨node_id, label, node_type, false⟩

/-- The `PartialEq` implementation for `CallNode` in `src/graph.rs`:
equality of `id` and `kind` only (the label and `panics` are ignored). -/
def CallNode.peq (a b : CallNode) : Bool :=
  a.id == b.id && a.kind == b.kind

/-- `CallEdge` from `src/graph.rs`.  The Rust field `from` is a Lean keyword
and is rendered `frm` throughout this file. -/
structure CallEdge where
  frm : Nat
  «to» : Nat
  call_id : HirId
  ty : Option String
  propagates : Bool
  is_error : Bool
deriving DecidableEq, Repr

/-- `CallEdge::new` from `src/graph.rs`: `ty` starts as `None` and `is_error`
as `false`. -/
def CallEdge.new (frm «to» : Nat) (call_id : HirId) (propagates : Bool) : CallEdge :=
  ⟨frm, «to», call_id, none, propagates, false⟩

/-- The `PartialEq` implementation for `CallEdge` in `src/graph.rs`: two edges
are equal iff their `to` and `from` indices agree — `call_id`, `ty`,
`propagates` and `is_error` are ignored.  This equality is what
`Vec::contains` and `!=` use inside `get_chain_from_edge`. -/
def CallEdge.peq (a b : CallEdge) : Bool :=
  a.to == b.to && a.frm == b.frm

/-- `CallGraph` from `src/graph.rs`. -/
structure CallGraph where
  nodes : List CallNode
  edges : List CallEdge
  crate_name : String
deriving DecidableEq, Repr

/-- `CallGraph::new`. -/
def CallGraph.new (crate_name : String) : CallGraph :=
  ⟨[], [], crate_name⟩

/-- `CallGraph::add_node`: the new node's id is the current length of the node
vector; the node is pushed and the id returned.  Rust mutates `self` and
returns the id; here the updated graph is returned alongside it. -/
def CallGraph.add_node (g : CallGraph) (label : String) (node_kind : CallNodeKind) :
    Nat × CallGraph :=
  let node := CallNode.new g.nodes.length label node_kind
  (node.id, { g with nodes := g.nodes ++ [node] })

/-- `CallGraph::add_edge`. -/
def CallGraph.add_edge (g : CallGraph) (edge : CallEdge) : CallGraph :=
  { g with edges := g.edges ++ [edge] }

/-- `CallGraph::find_local_fn_node`: first node whose kind is `LocalFn` with
the given `HirId`. -/
def CallGraph.find_local_fn_node (g : CallGraph) (id : HirId) : Option CallNode :=
  g.nodes.find? (fun node =>
    match node.kind with
    | .localFn _ hir_id => hir_id == id
    | .nonLocalFn _ => false)

/-- `CallGraph::find_non_local_fn_node`: first node whose kind is `NonLocalFn`
with the given `DefId`. -/
def CallGraph.find_non_local_fn_node (g : CallGraph) (id : DefId) : Option CallNode :=
  g.nodes.find? (fun node =>
    match node.kind with
    | .localFn _ _ => false
    | .nonLocalFn def_id => def_id == id)

/-- `CallGraph::get_outgoing_edges`: all edges whose `from` index is the given
node id, in edge-list order. -/
def CallGraph.get_outgoing_edges (g : CallGraph) (node_id : Nat) : List CallEdge :=
  g.edges.filter (fun e => e.frm == node_id)

/-- The `dot::GraphWalk` `source` accessor for `CallGraph`
(`src/graph.rs`): the node stored at the edge's `from` index.  The Rust
indexing `self.nodes[edge.from]` panics out of bounds; `getD` with the
`Inhabited` default models the in-bounds behaviour (the out-of-bounds case is
never exercised by graphs whose edges are in bounds). -/
def CallGraph.source (g : CallGraph) (edge : CallEdge) : CallNode :=
  g.nodes.getD edge.frm default

/-- The `dot::GraphWalk` `target` accessor for `CallGraph`: the node stored at
the edge's `to` index. -/
def CallGraph.target (g : CallGraph) (edge : CallEdge) : CallNode :=
  g.nodes.getD edge.to default

/-- `ChainNode` from `src/graph.rs`. -/
structure ChainNode where
  id : Nat
  label : String
deriving DecidableEq, Repr

instance : Inhabited ChainNode := ⟨⟨0, ""⟩⟩

/-- `ChainNode::new`. -/
def ChainNode.new (id : Nat) (label : String) : ChainNode :=
  ⟨id, label⟩

/-- `ChainEdge` from `src/graph.rs`.  The Rust field `from` is rendered
`frm`. -/
structure ChainEdge where
  frm : Nat
  «to» : Nat
  label : Option String
deriving DecidableEq, Repr

/-- `ChainEdge::new`. -/
def ChainEdge.new (frm «to» : Nat) (label : Option String) : ChainEdge :=
  ⟨frm, «to», label⟩

/-- `ChainGraph` from `src/graph.rs`. -/
structure ChainGraph where
  nodes : List ChainNode
  edges : List ChainEdge
  crate_name : String
deriving DecidableEq, Repr

/-- `ChainGraph::new`. -/
def ChainGraph.new (crate_name : String) : ChainGraph :=
  ⟨[], [], crate_name⟩

/-- `ChainGraph::add_node`: id is the node-vector length; push, return id. -/
def ChainGraph.add_node (g : ChainGraph) (label : String) : Nat × ChainGraph :=
  let id := g.nodes.length
  (id, { g with nodes := g.nodes ++ [ChainNode.new id label] })

/-- `ChainGraph::add_edge`. -/
def ChainGraph.add_edge (g : ChainGraph) (frm «to» : Nat) (label : Option String) : ChainGraph :=
  { g with edges := g.edges ++ [ChainEdge.new frm «to» label] }

/-- The `dot::GraphWalk` `source` accessor for `ChainGraph`
(`src/graph.rs`): it returns the node stored at the edge's `to` index —
note the orientation, reversed with respect to `CallGraph`. -/
def ChainGraph.source (g : ChainGraph) (edge : ChainEdge) : ChainNode :=
  g.nodes.getD edge.to default

/-- The `dot::GraphWalk` `target` accessor for `ChainGraph`: the node stored
at the edge's `from` index. -/
def ChainGraph.target (g : ChainGraph) (edge : ChainEdge) : ChainNode :=
  g.nodes.getD edge.frm default

/-!
## Chain extraction (`src/analysis/calls_to_chains.rs`)
-/
/-- Model of an `f64` value as far as the statistics of `to_chains` observe
one: `NaN`, `+inf`, or an exact nonnegative rational `num / den` in lowest
terms (`f64` rounding of a quotient of two small naturals is abstracted to
the exact value; no claim depends on rounding). -/
inductive FloatVal where
  | nan
  | inf
  | val (num den : Nat)
deriving DecidableEq, Repr

/-- Model of the `f64` division `(a as f64) / (b as f64)` for naturals `a`
and `b`: division by zero does not fault — `0.0 / 0.0` is `NaN` and
`x / 0.0` is `+inf` for `x > 0`; otherwise the exact quotient in lowest
terms. -/
def f64_div (a b : Nat) : FloatVal :=
  if b = 0 then (if a = 0 then .nan else .inf)
  else .val (a / Nat.gcd a b) (b / Nat.gcd a b)

/-- The aggregate statistics that `to_chains` computes and prints: number of
chains, biggest chain (edge count), total edge count, longest error path
(recursion depth), and the average chain size. -/
structure ChainStats where
  count : Nat
  max_size : Nat
  total_size : Nat
  max_depth : Nat
  average_size : FloatVal
deriving DecidableEq, Repr

/-- The `for edge in graph.get_outgoing_edges(from.to)` loop body of
`get_chain_from_edge` (`src/analysis/calls_to_chains.rs`), parametrised by
`rec`, the recursive call `get_chain_from_edge(graph, edge, explored, depth +
1)` at the remaining fuel.  State threaded exactly as in the source: `res`
(the chain so far), `explored` (the `&mut Vec` of visited target nodes, which
is pushed to and never popped), and `max_depth`.  `depth` is the constant
depth of the enclosing invocation. -/
def chain_loop (rec : CallEdge → List Nat → Nat → Option (List CallEdge × List Nat × Nat))
    (frm : CallEdge) :
    List CallEdge → List CallEdge → List Nat → Nat → Nat →
    Option (List CallEdge × List Nat × Nat)
  | [], res, explored, max_depth, _depth => some (res, explored, max_depth)
  | edge :: rest, res, explored, max_depth, depth =>
    if edge.is_error && edge.propagates then
      if !explored.contains edge.to && !(res.any (fun x => x.peq edge)) && !(edge.peq frm) then
        -- If we have not had this edge yet, explore the node
        let res := res ++ [edge]
        match rec edge explored (depth + 1) with
        | none => none
        | some (chain, explored2, d) =>
          chain_loop rec frm rest (res ++ chain) explored2
            (if d > max_depth then d else max_depth) depth
      else
        -- Otherwise just add the edge
        chain_loop rec frm rest (res ++ [edge]) explored max_depth depth
    else
      chain_loop rec frm rest res explored max_depth depth

/-- `get_chain_from_edge` from `src/analysis/calls_to_chains.rs`.  The Rust
recursion terminates because each recursive call targets a node not yet in
`explored`; here the recursion carries a fuel parameter and `none` models
exhausted fuel only.  The updated `explored` vector is returned because the
Rust version mutates it through a `&mut` borrow that the caller's loop keeps
using. -/
def get_chain_from_edge (g : CallGraph) :
    Nat → CallEdge → List Nat → Nat → Option (List CallEdge × List Nat × Nat)
  | 0, _, _, _ => none
  | fuel + 1, frm, explored, depth =>
    chain_loop (fun e ex d => get_chain_from_edge g fuel e ex d) frm
      (g.get_outgoing_edges frm.to) [] (explored ++ [frm.to]) depth depth

/-- The per-call body of the `for call in calls` loop of `to_chains`: look the
endpoints up in `node_map` (the `HashMap<usize, usize>`, modelled as an
association list with most-recent-first lookup), adding nodes to the new graph
on a miss, then add the edge. -/
def to_chains_add_call (graph : CallGraph) (acc : ChainGraph × List (Nat × Nat))
    (call : CallEdge) : ChainGraph × List (Nat × Nat) :=
  let (new_graph, node_map) := acc
  let step := fun (new_graph : ChainGraph) (node_map : List (Nat × Nat)) (key : Nat) =>
    match node_map.lookup key with
    | some id => (id, new_graph, node_map)
    | none =>
      let (id, ng) := new_graph.add_node (graph.nodes.getD key default).label
      (id, ng, (key, id) :: node_map)
  let (frm, new_graph, node_map) := step new_graph node_map call.frm
  let («to», new_graph, node_map) := step new_graph node_map call.to
  (new_graph.add_edge frm «to» call.ty, node_map)

/-- The `for edge in &graph.edges` loop of `to_chains`, threading the new
graph and the four numeric statistics (`count`, `max_size`, `total_size`,
`max_depth`). -/
def to_chains_loop (g : CallGraph) (fuel : Nat) :
    List CallEdge → ChainGraph × Nat × Nat × Nat × Nat →
    Option (ChainGraph × Nat × Nat × Nat × Nat)
  | [], acc => some acc
  | edge :: rest, (new_graph, count, max_size, total_size, max_depth) =>
    -- Start of a chain
    if edge.is_error && !edge.propagates then
      match get_chain_from_edge g fuel edge [] 1 with
      | none => none
      | some (res, _explored, depth) =>
        let calls := res ++ [edge]
        let size := calls.length
        let new_graph := (calls.foldl (to_chains_add_call g) (new_graph, [])).1
        to_chains_loop g fuel rest
          (new_graph, count + 1,
            if size > max_size then size else max_size,
            total_size + size,
            if depth > max_depth then depth else max_depth)
    else
      to_chains_loop g fuel rest (new_graph, count, max_size, total_size, max_depth)

/-- `to_chains` from `src/analysis/calls_to_chains.rs`.  The Rust function
returns only the `ChainGraph` and prints the statistics; the statistics are
returned here alongside it so that the printed values can be reasoned about.
The average is `total_size / count` in `f64`, computed unconditionally. -/
def to_chains (graph : CallGraph) (fuel : Nat) : Option (ChainGraph × ChainStats) :=
  match to_chains_loop graph fuel graph.edges (ChainGraph.new graph.crate_name, 0, 0, 0, 0) with
  | none => none
  | some (new_graph, count, max_size, total_size, max_depth) =>
    some (new_graph,
      { count := count, max_size := max_size, total_size := total_size,
        max_depth := max_depth, average_size := f64_div total_size count })

/-!
## Concrete graphs for the boundary claims
-/
/-- The call graph of the chain-extraction boundary example: edges `a→b`
(`is_error`, not propagating), `b→c` (`is_error`, propagating), `c→d`
(neither). -/
def graphC1 : CallGraph :=
  { nodes := [CallNode.new 0 "a" (.localFn 0 0), CallNode.new 1 "b" (.localFn 1 1),
              CallNode.new 2 "c" (.localFn 2 2), CallNode.new 3 "d" (.localFn 3 3)],
    edges := [⟨0, 1, 10, some "E", false, true⟩, ⟨1, 2, 11, some "E", true, true⟩,
              ⟨2, 3, 12, some "u32", false, false⟩],
    crate_name := "crate1" }

/-- The chain graph `to_chains` produces for `graphC1`. -/
def chainsC1 : ChainGraph :=
  { nodes := [⟨0, "b"⟩, ⟨1, "c"⟩, ⟨2, "a"⟩],
    edges := [⟨0, 1, some "E"⟩, ⟨2, 0, some "E"⟩],
    crate_name := "crate1" }

/-- The statistics `to_chains` reports for `graphC1`. -/
def statsC1 : ChainStats :=
  { count := 1, max_size := 2, total_size := 2, max_depth := 2,
    average_size := .val 2 1 }

/-- The no-start-edge example graph: its only edge has `is_error = false`. -/
def graphNoStart : CallGraph :=
  { nodes := [CallNode.new 0 "a" (.localFn 0 0), CallNode.new 1 "b" (.localFn 1 1)],
    edges := [⟨0, 1, 10, some "u32", false, false⟩],
    crate_name := "crate1" }

/-!
## Termination of `get_chain_from_edge`

The Rust recursion terminates because every recursive call targets a node not
yet in `explored` and pushes it, while `explored` is never popped.  The
measure is the number of edge-target node ids not yet explored.
-/
/-- Verification helper: the target node ids of all edges of a graph. -/
def to_ids (g : CallGraph) : List Nat :=
  g.edges.map (fun e => e.to)

/-- Verification helper: how many distinct edge-target node ids are not yet in
`explored`.  This bounds the remaining recursion depth of
`get_chain_from_edge`. -/
def unexplored_count (g : CallGraph) (explored : List Nat) : Nat :=
  ((to_ids g).dedup.filter (fun t => !explored.contains t)).length

/-!
## The cycle example
-/
/-- The cycle example: a start edge `x→a` (`is_error`, not propagating) and a
two-edge cycle `a→b`, `b→a`, both `is_error = true` and `propagates = true`. -/
def graphCyc : CallGraph :=
  { nodes := [CallNode.new 0 "x" (.localFn 0 0), CallNode.new 1 "a" (.localFn 1 1),
              CallNode.new 2 "b" (.localFn 2 2)],
    edges := [⟨0, 1, 10, some "E", false, true⟩, ⟨1, 2, 11, some "E", true, true⟩,
              ⟨2, 1, 12, some "E", true, true⟩],
    crate_name := "crate1" }

/-- The start edge of the cycle example. -/
def startCyc : CallEdge := ⟨0, 1, 10, some "E", false, true⟩

/-- The edge of the cycle example that closes the cycle back to the visited
node `a`. -/
def closingCyc : CallEdge := ⟨2, 1, 12, some "E", true, true⟩

/-!
## Node ids are vector positions (C9) and graph-walk orientation (C10)
-/
/-- Verification helper: every node of a `CallGraph` carries its own position
in the node vector as its id. -/
def ids_ok (g : CallGraph) : Prop :=
  ∀ (i : Nat) (h : i < g.nodes.length), (g.nodes.get ⟨i, h⟩).id = i

/-- Verification helper: every node of a `ChainGraph` carries its own position
in the node vector as its id. -/
def chain_ids_ok (g : ChainGraph) : Prop :=
  ∀ (i : Nat) (h : i < g.nodes.length), (g.nodes.get ⟨i, h⟩).id = i

/-- Verification helper: all edge endpoints of a `CallGraph` index its node
vector. -/
def edges_in_bounds (g : CallGraph) : Prop :=
  ∀ e ∈ g.edges, e.frm < g.nodes.length ∧ e.to < g.nodes.length

instance (g : CallGraph) : Decidable (edges_in_bounds g) := by
  unfold edges_in_bounds; infer_instance

/-!
## HIR embedding (`src/analysis/create_graph.rs`)

The call-discovery functions walk `rustc_hir` syntax.  The embedding keeps
exactly the structure those functions consume: every `ExprKind`, `StmtKind`,
`PatKind` variant the source matches has a constructor carrying the
sub-expressions the source recurses into, together with the outcome of the
compiler queries the source performs at that node:

* for `ExprKind::Call`, `mir_res` is the combined result of
  `get_call_def_id` and `get_node_kind_from_def_id` (the MIR-based resolution
  tried first) and `path_res` the result of `get_node_kind_from_path` on the
  callee path (the fallback; its `add_edge` component is ignored by the
  source in this position);
* for `ExprKind::MethodCall`, `mir_res` is as above and `typeck_res` the
  result of `typeck(..).type_dependent_def_id(..)` split into local/non-local
  as the source does;
* for `ExprKind::Path`, `res` is the result of `get_node_kind_from_path`;
* for `ExprKind::Closure`, `closure_hir_id` is
  `local_def_id_to_hir_id(closure.def_id)`.

Block labels, spans, operators and other payload the source ignores are
dropped. -/
/-- The `MatchSource` distinction the source makes: the `?` operator's
desugaring versus every other match. -/
inductive HMatchSource where
  | tryDesugar
  | normal
deriving DecidableEq

mutual
inductive HExpr where
  | call (mir_res : Option CallNodeKind) (path_res : Option (CallNodeKind × Bool))
      (hir_id : Nat) (args : List HExpr)
  | methodCall (mir_res : Option CallNodeKind) (typeck_res : Option CallNodeKind)
      (hir_id : Nat) (receiver : HExpr) (args : List HExpr)
  | matchE (scrutinee : HExpr) (arms : List HArm) (src : HMatchSource)
  | closure (def_id closure_hir_id hir_id : Nat)
  | constBlock (b : HBlock)
  | array (args : List HExpr)
  | tup (args : List HExpr)
  | binary (a b : HExpr)
  | unary (e : HExpr)
  | lit
  | cast (e : HExpr)
  | typeAscription (e : HExpr)
  | dropTemps (e : HExpr)
  | becomeE (e : HExpr)
  | letE (init : HExpr)
  | ifE (c t : HExpr) (e : Option HExpr)
  | loop (b : HBlock)
  | block (b : HBlock)
  | assign (a b : HExpr)
  | assignOp (a b : HExpr)
  | field (e : HExpr)
  | index (a b : HExpr)
  | path (res : Option (CallNodeKind × Bool)) (hir_id : Nat)
  | addrOf (e : HExpr)
  | breakE (e : Option HExpr)
  | continueE
  | ret (e : Option HExpr)
  | inlineAsm
  | offsetOf
  | structE (fields : List HExpr) (base : Option HExpr)
  | repeatE (e : HExpr)
  | yieldE (e : HExpr)
  | errE

inductive HArm where
  | mk (pat : HPat) (guard : Option HExpr) (body : HExpr)

inductive HBlock where
  | mk (stmts : List HStmt) (expr : Option HExpr)

inductive HStmt where
  | letS (init : Option HExpr)
  | item
  | exprS (e : HExpr)
  | semi (e : HExpr)

inductive HPat where
  | wild
  | never
  | binding (p : Option HPat)
  | structP (fields : List HPat)
  | tupleStruct (pats : List HPat)
  | orP (pats : List HPat)
  | pathP
  | tupleP (pats : List HPat)
  | box (p : HPat)
  | deref (p : HPat)
  | ref (p : HPat)
  | litP (e : HExpr)
  | range (a b : Option HExpr)
  | slice (before : List HPat) (mid : Option HPat) (after : List HPat)
  | errP
end

/-- One element of the `Vec<(NodeKind, HirId, bool, bool)>` the call-discovery
functions return: the resolved callee, the call expression's `HirId`, the
`add_edge` flag and the `propagates` flag. -/
structure FnCall where
  kind : CallNodeKind
  call_id : HirId
  add_edge : Bool
  propagates : Bool
deriving DecidableEq, Repr

/-- The `for (kind, id, add_edge, _) in ... { res.push((kind, id, add_edge,
true)) }` loops of the source (used for the `?`-desugaring scrutinee, `return`
operands and the function block's tail expression): every discovered call is
re-pushed with `propagates` forced to `true`. -/
def mark_propagates (calls : List FnCall) : List FnCall :=
  calls.map (fun c => { c with propagates := true })

mutual

/-- `get_function_calls_in_expression` from `src/analysis/create_graph.rs`. -/
def get_function_calls_in_expression : HExpr → List FnCall
  | .call mir_res path_res hir_id args =>
    (match mir_res with
     | some node_kind => [⟨node_kind, hir_id, true, false⟩]
     | none =>
       match path_res with
       | some (node_kind, _add_edge) => [⟨node_kind, hir_id, true, false⟩]
       | none => []) ++ get_calls_in_exprs args
  | .methodCall mir_res typeck_res hir_id receiver args =>
    (match mir_res with
     | some node_kind => [⟨node_kind, hir_id, true, false⟩]
     | none =>
       match typeck_res with
       | some node_kind => [⟨node_kind, hir_id, true, false⟩]
       | none => []) ++
    (get_function_calls_in_expression receiver ++ get_calls_in_exprs args)
  | .matchE scrutinee arms src =>
    (match src with
     | .tryDesugar => mark_propagates (get_function_calls_in_expression scrutinee)
     | .normal => get_function_calls_in_expression scrutinee ++ get_calls_in_arms arms)
  | .closure def_id closure_hir_id hir_id =>
    [⟨.localFn def_id closure_hir_id, hir_id, false, false⟩]
  | .constBlock b => get_function_calls_in_block b false
  | .array args => get_calls_in_exprs args
  | .tup args => get_calls_in_exprs args
  | .binary a b => get_function_calls_in_expression a ++ get_function_calls_in_expression b
  | .unary e => get_function_calls_in_expression e
  | .lit => []
  | .cast e => get_function_calls_in_expression e
  | .typeAscription e => get_function_calls_in_expression e
  | .dropTemps e => get_function_calls_in_expression e
  | .becomeE e => get_function_calls_in_expression e
  | .letE init => get_function_calls_in_expression init
  | .ifE c t e =>
    get_function_calls_in_expression c ++ get_function_calls_in_expression t ++
      get_calls_in_opt e
  | .loop b => get_function_calls_in_block b false
  | .block b => get_function_calls_in_block b false
  | .assign a b => get_function_calls_in_expression a ++ get_function_calls_in_expression b
  | .assignOp a b => get_function_calls_in_expression a ++ get_function_calls_in_expression b
  | .field e => get_function_calls_in_expression e
  | .index a b => get_function_calls_in_expression a ++ get_function_calls_in_expression b
  | .path res hir_id =>
    (match res with
     | some (node_kind, add_edge) => [⟨node_kind, hir_id, add_edge, false⟩]
     | none => [])
  | .addrOf e => get_function_calls_in_expression e
  | .breakE e => get_calls_in_opt e
  | .continueE => []
  | .ret e =>
    (match e with
     | some exp => mark_propagates (get_function_calls_in_expression exp)
     | none => [])
  | .inlineAsm => []
  | .offsetOf => []
  | .structE fields base => get_calls_in_exprs fields ++ get_calls_in_opt base
  | .repeatE e => get_function_calls_in_expression e
  | .yieldE e => get_function_calls_in_expression e
  | .errE => []

/-- The `for exp in args { res.extend(...) }` loops of the source. -/
def get_calls_in_exprs : List HExpr → List FnCall
  | [] => []
  | e :: rest => get_function_calls_in_expression e ++ get_calls_in_exprs rest

/-- The `if let Some(exp) = ... { res.extend(...) }` steps of the source. -/
def get_calls_in_opt : Option HExpr → List FnCall
  | none => []
  | some e => get_function_calls_in_expression e

/-- The `for arm in arms` loop of the source: body, then guard, then
pattern. -/
def get_calls_in_arms : List HArm → List FnCall
  | [] => []
  | .mk pat guard body :: rest =>
    (get_function_calls_in_expression body ++ get_calls_in_opt guard ++
      get_function_calls_in_pattern pat) ++ get_calls_in_arms rest

/-- `get_function_calls_in_block` from `src/analysis/create_graph.rs`.  The
tail expression is handled first: a `DropTemps`-wrapped block replaces the
whole computation; otherwise, when `is_fn` holds (the block is a function
body), its calls are re-pushed with `propagates := true`.  Then the
statements are walked in order. -/
def get_function_calls_in_block : HBlock → Bool → List FnCall
  | .mk _stmts (some (.dropTemps (.block b2))), is_fn =>
    get_function_calls_in_block b2 is_fn
  | .mk stmts (some (.dropTemps _)), _is_fn => get_calls_in_stmts stmts
  | .mk stmts (some exp), is_fn =>
    (if is_fn then mark_propagates (get_function_calls_in_expression exp)
     else get_function_calls_in_expression exp) ++ get_calls_in_stmts stmts
  | .mk stmts none, _is_fn => get_calls_in_stmts stmts

/-- The `for statement in block.stmts` loop of the source. -/
def get_calls_in_stmts : List HStmt → List FnCall
  | [] => []
  | s :: rest =>
    (match s with
     | .letS init => get_calls_in_opt init
     | .item => []
     | .exprS e => get_function_calls_in_expression e
     | .semi e => get_function_calls_in_expression e) ++ get_calls_in_stmts rest

/-- `get_function_calls_in_pattern` from `src/analysis/create_graph.rs`. -/
def get_function_calls_in_pattern : HPat → List FnCall
  | .wild => []
  | .never => []
  | .binding p => get_calls_in_opt_pat p
  | .structP fields => get_calls_in_pats fields
  | .tupleStruct pats => get_calls_in_pats pats
  | .orP pats => get_calls_in_pats pats
  | .pathP => []
  | .tupleP pats => get_calls_in_pats pats
  | .box p => get_function_calls_in_pattern p
  | .deref p => get_function_calls_in_pattern p
  | .ref p => get_function_calls_in_pattern p
  | .litP e => get_function_calls_in_expression e
  | .range a b => get_calls_in_opt a ++ get_calls_in_opt b
  | .slice before mid after =>
    get_calls_in_pats before ++ get_calls_in_opt_pat mid ++ get_calls_in_pats after
  | .errP => []

/-- The `for p in pats` loops of the source. -/
def get_calls_in_pats : List HPat → List FnCall
  | [] => []
  | p :: rest => get_function_calls_in_pattern p ++ get_calls_in_pats rest

/-- The `if let Some(p) = ... { res.extend(...) }` steps of the source. -/
def get_calls_in_opt_pat : Option HPat → List FnCall
  | none => []
  | some p => get_function_calls_in_pattern p

end

/-!
## Forwarding (`propagates`) detection (C6)
-/
/-- Verification helper: whether an expression is a `DropTemps` wrapper (the
one tail-expression shape `get_function_calls_in_block` treats specially). -/
def is_drop_temps : HExpr → Bool
  | .dropTemps _ => true
  | _ => false

/-- The function body of the forwarding-detection example
`fn f() -> Result<(), E> [ g()?; h(); return i(); ]`: a `?`-desugared match
on the call to `g` (the desugaring's arms carry no further calls and are
elided), a discarded call to `h`, and a `return` of the call to `i` — all
three as semicolon statements, with no tail expression. -/
def blockC6 : HBlock := .mk
  [.semi (.matchE (.call (some (.nonLocalFn 100)) none 1 []) [] .tryDesugar),
   .semi (.call (some (.nonLocalFn 101)) none 2 []),
   .semi (.ret (some (.call (some (.nonLocalFn 102)) none 3 [])))]
  none

/-- The nested-argument example `return i(j());`: the call to `j` sits as an
argument inside the returned call to `i`. -/
def retNested : HExpr :=
  .ret (some (.call (some (.nonLocalFn 200)) none 4 [.call (some (.nonLocalFn 201)) none 5 []]))

/-!
## Call-graph construction (`src/analysis/create_graph.rs`)

`add_calls_from_function` looks up the function's HIR node and dispatches on
its shape (expression block, bare block, `Item` function, `ImplItem`
function, closure body) before handing the block to `add_calls_from_block`.
The context record abstracts that lookup: `block_of` maps a function's
`HirId` to its body block when the chain of dispatches reaches one.  The
Rust recursion `add_calls_from_block` → `add_calls_from_function` terminates
because a local function is explored only when its node was just added;
the embedding passes the recursive call explicitly (instantiated by
`add_calls_from_function` with the remaining fuel).
-/
/-- The queries the construction performs on the compiler context `TyCtxt`. -/
structure AnalysisCtx where
  crate_name : String
  def_path_str : Nat → String
  block_of : Nat → Option HBlock

/-- `add_calls_from_block` from `src/analysis/create_graph.rs`: add an edge
for every discovered call, reusing the node of an already-encountered callee,
and exploring (through `rec`) the body of a local callee encountered for the
first time. -/
def add_calls_from_block (ctx : AnalysisCtx) (rec : Nat → Nat → CallGraph → Option CallGraph)
    (frm : Nat) : List FnCall → CallGraph → Option CallGraph
  | [], graph => some graph
  | call :: rest, graph =>
    match call.kind with
    | .localFn def_id hir_id =>
      (match graph.find_local_fn_node hir_id with
       | some node =>
         -- We have already encountered this local function, so just add the edge
         add_calls_from_block ctx rec frm rest
           (if call.add_edge then
              graph.add_edge (CallEdge.new frm node.id call.call_id call.propagates)
            else graph)
       | none =>
         -- We have not yet explored this local function, so add new node and
         -- edge, and explore it.
         let (id, graph2) := graph.add_node (ctx.def_path_str def_id) call.kind
         let graph3 :=
           if call.add_edge then
             graph2.add_edge (CallEdge.new frm id call.call_id call.propagates)
           else graph2
         match rec id hir_id graph3 with
         | none => none
         | some graph4 => add_calls_from_block ctx rec frm rest graph4)
    | .nonLocalFn def_id =>
      (match graph.find_non_local_fn_node def_id with
       | some node =>
         -- We have already encountered this non-local function, so just add the edge
         add_calls_from_block ctx rec frm rest
           (if call.add_edge then
              graph.add_edge (CallEdge.new frm node.id call.call_id call.propagates)
            else graph)
       | none =>
         -- We have not yet explored this non-local function, so add new node and edge
         let (id, graph2) := graph.add_node (ctx.def_path_str call.kind.def_id) call.kind
         add_calls_from_block ctx rec frm rest
           (if call.add_edge then
              graph2.add_edge (CallEdge.new frm id call.call_id call.propagates)
            else graph2))

/-- `add_calls_from_function` from `src/analysis/create_graph.rs`, with
`ctx.block_of` abstracting the HIR-node dispatch that reaches the function's
body block (functions without a reachable block contribute nothing). -/
def add_calls_from_function (ctx : AnalysisCtx) :
    Nat → Nat → Nat → CallGraph → Option CallGraph
  | 0, _, _, _ => none
  | fuel + 1, from_node, fn_id, graph =>
    match ctx.block_of fn_id with
    | some block =>
      add_calls_from_block ctx (fun a b c => add_calls_from_function ctx fuel a b c) from_node
        (get_function_calls_in_block block true) graph
    | none => some graph

/-- `create_call_graph_from_root` from `src/analysis/create_graph.rs`: a node
for the entry function, then its body walk.  The source first checks that the
entry item is a function (`ItemKind::Fn`); an entry that is not one yields
the empty graph, a degenerate case outside every claim, so the embedding
takes the function case. -/
def create_call_graph_from_root (ctx : AnalysisCtx) (fuel : Nat)
    (root_def_id root_hir_id : Nat) : Option CallGraph :=
  let graph := CallGraph.new ctx.crate_name
  let node := CallNodeKind.local_fn root_def_id root_hir_id
  let (node_id, graph) := graph.add_node (ctx.def_path_str root_def_id) node
  add_calls_from_function ctx fuel node_id root_hir_id graph

/-!
### The recursion examples (C4)
-/
/-- The self-recursion program: `main` (ids 0) whose body is the single
statement `main();`. -/
def ctxSelf : AnalysisCtx :=
  { crate_name := "crate1",
    def_path_str := fun _ => "main",
    block_of := fun id =>
      if id = 0 then some (.mk [.semi (.call (some (.localFn 0 0)) none 100 [])] none)
      else none }

/-- The graph built for the self-recursion program: the node `main` and the
single self edge. -/
def graphSelf : CallGraph :=
  { nodes := [⟨0, "main", .localFn 0 0, false⟩],
    edges := [⟨0, 0, 100, none, false, false⟩],
    crate_name := "crate1" }

/-- The mutual-recursion program: `main` (ids 0) calls `f` (ids 1), `f` calls
`g` (ids 2), and `g` calls `f` back. -/
def ctxMut : AnalysisCtx :=
  { crate_name := "crate1",
    def_path_str := fun d => if d = 0 then "main" else if d = 1 then "f" else "g",
    block_of := fun id =>
      if id = 0 then some (.mk [.semi (.call (some (.localFn 1 1)) none 100 [])] none)
      else if id = 1 then some (.mk [.semi (.call (some (.localFn 2 2)) none 101 [])] none)
      else if id = 2 then some (.mk [.semi (.call (some (.localFn 1 1)) none 102 [])] none)
      else none }

/-- The graph built for the mutual-recursion program: nodes `main`, `f`, `g`
and one edge per direct call. -/
def graphMut : CallGraph :=
  { nodes := [⟨0, "main", .localFn 0 0, false⟩, ⟨1, "f", .localFn 1 1, false⟩,
              ⟨2, "g", .localFn 2 2, false⟩],
    edges := [⟨0, 1, 100, none, false, false⟩, ⟨1, 2, 101, none, false, false⟩,
              ⟨2, 1, 102, none, false, false⟩],
    crate_name := "crate1" }

/-!
### No duplicate nodes (C5)
-/
/-- Verification helper: the function-identity relation of the data model —
two node kinds name the same function iff they are both `LocalFn` with the
same body (`HirId`) reference or both `NonLocalFn` with the same global
(`DefId`) reference.  This is exactly what `find_local_fn_node` and
`find_non_local_fn_node` look up. -/
def same_identity : CallNodeKind → CallNodeKind → Bool
  | .localFn _ h1, .localFn _ h2 => h1 == h2
  | .nonLocalFn d1, .nonLocalFn d2 => d1 == d2
  | _, _ => false

/-- Verification helper: no two nodes of the graph share a function
identity. -/
def no_duplicate_nodes (g : CallGraph) : Prop :=
  g.nodes.Pairwise (fun a b => same_identity a.kind b.kind = false)

/-!
## Return-type classification (`src/analysis/types.rs`)

The classifier works on `rustc` type descriptors through two operations only:
`walk()` (the type followed by all its component types, preorder) and
`format!` (the printed form).  A type descriptor is embedded as a named
applied type (`adt`) or an opaque future (the shape
`context.ty_is_opaque_future` recognises; its coroutine arguments are what
`extract_result_from_future` reaches through
`context.type_of(alias.def_id)`).  Rust strings are embedded as `List Char`:
`starts_with` is `List.isPrefixOf`, `ends_with` is `List.isSuffixOf`.  The
`get_call_type` MIR/signature lookup that produces the return type is the
compiler query supplying the classifier's input and is abstracted as that
input. -/
inductive STy where
  | adt (name : List Char) (args : List STy)
  | opaqueFuture (coroutine_args : List STy)

mutual

/-- The `format!` printed form of a type: `name` for a bare type,
`name<a, b, …>` for an applied one; an opaque future prints as its `impl
Future` form, which never carries the result prefix. -/
def STy.print : STy → List Char
  | .adt name [] => name
  | .adt name (a :: rest) =>
    name ++ "<".toList ++ STy.print a ++ STy.print_rest rest ++ ">".toList
  | .opaqueFuture _ => "impl std::future::Future".toList

/-- Comma-separated printing of the remaining type arguments. -/
def STy.print_rest : List STy → List Char
  | [] => []
  | a :: rest => ", ".toList ++ STy.print a ++ STy.print_rest rest

end

mutual

/-- The `walk()` of a type descriptor: the type itself, then its components,
preorder.  An opaque future is walked as a single opaque element — its
coroutine internals are not exposed to `walk` (that is why
`extract_result_from_future` exists). -/
def STy.walk : STy → List STy
  | .adt name args => .adt name args :: STy.walk_args args
  | .opaqueFuture cargs => [.opaqueFuture cargs]

/-- Walk of a component list. -/
def STy.walk_args : List STy → List STy
  | [] => []
  | a :: rest => STy.walk a ++ STy.walk_args rest

end

/-- `context.ty_is_opaque_future`. -/
def ty_is_opaque_future : STy → Bool
  | .opaqueFuture _ => true
  | .adt _ _ => false

/-- `extract_result` from `src/analysis/types.rs`: the first component of the
walk whose printed form begins with the canonical result prefix and ends with
a closing bracket. -/
def extract_result (ty : STy) : Option STy :=
  ty.walk.find? (fun arg =>
    List.isPrefixOf "std::result::Result<".toList arg.print &&
    List.isSuffixOf ">".toList arg.print)

/-- `extract_result_from_future` from `src/analysis/types.rs`: scan the walk
for an opaque future and look for the result shape among its coroutine
arguments' printed forms. -/
def extract_result_from_future (ty : STy) : Option STy :=
  ty.walk.findSome? (fun t =>
    match t with
    | .opaqueFuture cargs =>
      cargs.find? (fun arg =>
        List.isPrefixOf "std::result::Result<".toList arg.print &&
        List.isSuffixOf ">".toList arg.print)
    | .adt _ _ => none)

/-- `extract_error_from_result` from `src/analysis/types.rs`: the first
component `f` of the result type's walk such that the result type's printed
form ends with `, f>` — i.e. the second (error) type argument. -/
def extract_error_from_result (opt : Option STy) : Option (List Char) :=
  match opt with
  | none => none
  | some t =>
    (t.walk.find? (fun arg =>
      List.isSuffixOf (", ".toList ++ arg.print ++ ">".toList) t.print)).map STy.print

/-- `get_error_or_type` from `src/analysis/types.rs`: extract the error type
from a result (unwrapping one opaque-future level first when the return type
is one), or return the full printed type, along with the `is_error` flag. -/
def get_error_or_type (ret_ty : STy) : List Char × Bool :=
  let result :=
    if ty_is_opaque_future ret_ty then extract_result_from_future ret_ty
    else extract_result ret_ty
  let res := extract_error_from_result result
  (res.getD ret_ty.print, res.isSome)

/-- The declared return type `Result<(), MyError>` (after any alias
expansion, which the compiler performs before the classifier runs). -/
def tyResultUnit : STy :=
  .adt "std::result::Result".toList [.adt "()".toList [], .adt "MyError".toList []]

/-- A generic alias structurally expanding to `Result<u32, std::io::Error>`:
the classifier sees the expanded structural type. -/
def tyResultAlias : STy :=
  .adt "std::result::Result".toList [.adt "u32".toList [], .adt "std::io::Error".toList []]

/-- A result whose error argument is itself generic: `Result<(), MyErr<u32>>`. -/
def tyResultNested : STy :=
  .adt "std::result::Result".toList
    [.adt "()".toList [], .adt "MyErr".toList [.adt "u32".toList []]]

/-- The unrelated optional-value type `Option<u32>`. -/
def tyOption : STy :=
  .adt "std::option::Option".toList [.adt "u32".toList []]

/-- The plain numeric type `u32`. -/
def tyU32 : STy := .adt "u32".toList []

/-!
## Annotation and edge-filter passes of `analyze` (`src/analysis/mod.rs`)
-/
instance : Inhabited CallEdge := ⟨⟨0, 0, 0, none, false, false⟩⟩

/-- The per-edge condition of the removal loop in `analyze`
(`src/analysis/mod.rs`): an edge is removed when its type is unknown, or is
not the `std::result::Result` type while the target node does not panic. -/
def edge_removed (nodes : List CallNode) (edge : CallEdge) : Bool :=
  match edge.ty with
  | some ty => !ty.startsWith "std::result::Result<" && !(nodes.getD edge.to default).panics
  | none => true

/-- The `for i in (0..graph.edges.len()).rev()` removal loop of `analyze`:
indices are visited from the top down, so removing index `i` never shifts a
yet-unvisited index. -/
def remove_redundant_loop (nodes : List CallNode) : List CallEdge → Nat → List CallEdge
  | edges, 0 => edges
  | edges, i + 1 =>
    remove_redundant_loop nodes
      (if edge_removed nodes (edges.getD i default) then edges.eraseIdx i else edges) i

/-- The per-edge assignment of the annotation loop in `analyze`:
`edge.ty = ret_ty.map(|t| format!("{t}"))`, with the `types::get_call_type`
compiler query abstracted as `ret_ty` keyed by the edge's `call_id`. -/
def annotate_edge (ret_ty : HirId → Option String) (e : CallEdge) : CallEdge :=
  { e with ty := ret_ty e.call_id }

/-- The annotation pass and subsequent edge-filter pass of `analyze`
(`src/analysis/mod.rs`, after graph construction): set every edge's `ty`,
then run the removal loop over the whole edge vector. -/
def analyze_annotate_and_filter (g : CallGraph) (ret_ty : HirId → Option String) : CallGraph :=
  let g2 := { g with edges := g.edges.map (annotate_edge ret_ty) }
  { g2 with edges := remove_redundant_loop g2.nodes g2.edges g2.edges.length }

/-- The counterexample graph for C8: one builder-created edge, whose call's
return type is unknown. -/
def graphC8 : CallGraph :=
  { nodes := [CallNode.new 0 "a" (.localFn 0 0), CallNode.new 1 "b" (.nonLocalFn 5)],
    edges := [CallEdge.new 0 1 10 false],
    crate_name := "crate1" }

/-!
## Theorems
-/

/-!
## Fuel monotonicity for chain extraction

Fuel is an artifact of the embedding: once `get_chain_from_edge` succeeds at
some fuel, any larger fuel gives the same result.  Termination of the Rust
recursion corresponds to stabilisation: the result is defined and constant
for all sufficiently large fuel.
-/
theorem chain_loop_mono {rec rec2 : CallEdge → List Nat → Nat → Option (List CallEdge × List Nat × Nat)}
    (h : ∀ e ex d r, rec e ex d = some r → rec2 e ex d = some r) (frm : CallEdge) :
    ∀ (es res : List CallEdge) (ex : List Nat) (md d : Nat)
      (r : List CallEdge × List Nat × Nat),
      chain_loop rec frm es res ex md d = some r →
      chain_loop rec2 frm es res ex md d = some r := by
  intro es
  induction es with
  | nil => intro res ex md d r hr; simpa [chain_loop] using hr
  | cons e rest ih =>
    intro res ex md d r hr
    simp only [chain_loop] at hr ⊢
    by_cases h1 : (e.is_error && e.propagates) = true
    · rw [if_pos h1] at hr ⊢
      by_cases h2 : ((!ex.contains e.to && !res.any fun x => x.peq e) && !e.peq frm) = true
      · rw [if_pos h2] at hr ⊢
        cases hrec : rec e ex (d + 1) with
        | none => rw [hrec] at hr; simp at hr
        | some v =>
          obtain ⟨chain, ex2, dd⟩ := v
          rw [hrec] at hr
          rw [h e ex (d + 1) _ hrec]
          exact ih _ _ _ _ _ hr
      · rw [if_neg h2] at hr ⊢; exact ih _ _ _ _ _ hr
    · rw [if_neg h1] at hr ⊢; exact ih _ _ _ _ _ hr

theorem get_chain_from_edge_mono_succ (g : CallGraph) :
    ∀ (fuel : Nat) (frm : CallEdge) (ex : List Nat) (d : Nat)
      (r : List CallEdge × List Nat × Nat),
      get_chain_from_edge g fuel frm ex d = some r →
      get_chain_from_edge g (fuel + 1) frm ex d = some r := by
  intro fuel
  induction fuel with
  | zero => intro frm ex d r hr; simp [get_chain_from_edge] at hr
  | succ fuel ih =>
    intro frm ex d r hr
    simp only [get_chain_from_edge] at hr ⊢
    exact chain_loop_mono (fun e ex2 d2 r2 h2 => ih e ex2 d2 r2 h2) frm _ _ _ _ _ _ hr

theorem get_chain_from_edge_stable (g : CallGraph) (fuel : Nat) (frm : CallEdge)
    (ex : List Nat) (d : Nat) (r : List CallEdge × List Nat × Nat)
    (h : get_chain_from_edge g fuel frm ex d = some r) :
    ∀ n, get_chain_from_edge g (fuel + n) frm ex d = some r := by
  intro n
  induction n with
  | zero => exact h
  | succ n ih => exact get_chain_from_edge_mono_succ g (fuel + n) frm ex d r ih

theorem to_chains_loop_mono_succ (g : CallGraph) (fuel : Nat) :
    ∀ (es : List CallEdge) (acc r : ChainGraph × Nat × Nat × Nat × Nat),
      to_chains_loop g fuel es acc = some r →
      to_chains_loop g (fuel + 1) es acc = some r := by
  intro es
  induction es with
  | nil => intro acc r hr; simpa [to_chains_loop] using hr
  | cons e rest ih =>
    intro acc r hr
    obtain ⟨ng, count, max_size, total_size, max_depth⟩ := acc
    simp only [to_chains_loop] at hr ⊢
    by_cases h1 : (e.is_error && !e.propagates) = true
    · rw [if_pos h1] at hr ⊢
      cases hrec : get_chain_from_edge g fuel e [] 1 with
      | none => rw [hrec] at hr; simp at hr
      | some v =>
        obtain ⟨res, ex2, dd⟩ := v
        rw [hrec] at hr
        rw [get_chain_from_edge_mono_succ g fuel e [] 1 _ hrec]
        exact ih _ _ hr
    · rw [if_neg h1] at hr ⊢; exact ih _ _ hr

theorem to_chains_stable (g : CallGraph) (fuel : Nat)
    (r : ChainGraph × ChainStats) (h : to_chains g fuel = some r) :
    ∀ n, to_chains g (fuel + n) = some r := by
  intro n
  induction n with
  | zero => exact h
  | succ n ih =>
    simp only [to_chains] at ih ⊢
    cases hl : to_chains_loop g (fuel + n) g.edges (ChainGraph.new g.crate_name, 0, 0, 0, 0) with
    | none => rw [hl] at ih; simp at ih
    | some v =>
      rw [hl] at ih
      rw [show fuel + (n + 1) = (fuel + n) + 1 by omega,
        to_chains_loop_mono_succ g (fuel + n) g.edges _ v hl]
      exact ih

/-- C1: for the call graph with exactly the edges `a→b` (`is_error = true`,
`propagates = false`), `b→c` (`is_error = true`, `propagates = true`) and
`c→d` (`is_error = false`), `to_chains` succeeds at every fuel of at least 2
and yields exactly one chain — `count = 1` — whose nodes are `b`, `c` and `a`
(so `d` is excluded) and whose edges are `b→c` and `a→b` (so the chain covers
`a→b→c`), with `max_depth = 2`. -/
theorem chain_extraction_boundary :
    (∀ n : Nat, to_chains graphC1 (2 + n) = some (chainsC1, statsC1)) ∧
    chainsC1.nodes.map ChainNode.label = ["b", "c", "a"] ∧
    chainsC1.edges = [⟨0, 1, some "E"⟩, ⟨2, 0, some "E"⟩] ∧
    statsC1.count = 1 ∧ statsC1.max_depth = 2 := by
  refine ⟨fun n => to_chains_stable graphC1 2 (chainsC1, statsC1) (by decide) n,
    by decide, by decide, by decide, by decide⟩

/-- Helper for C2: a graph edge that is not a chain start (`is_error &&
!propagates` is false) leaves the `to_chains` loop state untouched. -/
theorem to_chains_loop_no_start (g : CallGraph) (fuel : Nat) :
    ∀ (es : List CallEdge) (acc : ChainGraph × Nat × Nat × Nat × Nat),
      (∀ e ∈ es, (e.is_error && !e.propagates) = false) →
      to_chains_loop g fuel es acc = some acc := by
  intro es
  induction es with
  | nil => intro acc _; simp [to_chains_loop]
  | cons e rest ih =>
    intro acc h
    obtain ⟨ng, count, max_size, total_size, max_depth⟩ := acc
    simp only [to_chains_loop]
    rw [if_neg (by simp [h e (by simp)])]
    exact ih _ (fun x hx => h x (by simp [hx]))

/-- C2: a call graph with zero qualifying start edges (no edge with
`is_error = true` and `propagates = false`) makes `to_chains` succeed at every
fuel — there is no division-by-zero fault — reporting `count = 0`, an empty
chain graph, and the average statistic `NaN` (the undefined `f64` value
`0.0 / 0.0`; the division is total, so nothing crashes). -/
theorem empty_chain_average (g : CallGraph) (fuel : Nat)
    (h : ∀ e ∈ g.edges, ¬(e.is_error = true ∧ e.propagates = false)) :
    to_chains g fuel =
      some (ChainGraph.new g.crate_name,
        { count := 0, max_size := 0, total_size := 0, max_depth := 0,
          average_size := .nan }) := by
  have hb : ∀ e ∈ g.edges, (e.is_error && !e.propagates) = false := by
    intro e he
    have := h e he
    cases hie : e.is_error <;> cases hp : e.propagates <;> simp_all
  simp only [to_chains, to_chains_loop_no_start g fuel g.edges _ hb]
  rfl

/-- Witness for C2 at the concrete graph `graphNoStart` and fuel 0. -/
theorem empty_chain_average_witness :
    to_chains graphNoStart 0 =
      some (ChainGraph.new "crate1",
        { count := 0, max_size := 0, total_size := 0, max_depth := 0,
          average_size := .nan }) :=
  empty_chain_average graphNoStart 0 (by decide)

theorem unexplored_count_append_le (g : CallGraph) (ex t : List Nat) :
    unexplored_count g (ex ++ t) ≤ unexplored_count g ex := by
  apply List.Sublist.length_le
  apply List.monotone_filter_right
  intro a ha
  have ha2 : a ∉ ex ++ t := by simpa using ha
  simp only [List.mem_append] at ha2
  push_neg at ha2
  simp [ha2.1]

theorem unexplored_count_push_lt (g : CallGraph) (ex : List Nat) (x : Nat)
    (hx : x ∈ to_ids g) (hnx : ex.contains x = false) :
    unexplored_count g (ex ++ [x]) < unexplored_count g ex := by
  have hsub : List.Sublist ((to_ids g).dedup.filter (fun t => !(ex ++ [x]).contains t))
      ((to_ids g).dedup.filter (fun t => !ex.contains t)) := by
    apply List.monotone_filter_right
    intro a ha
    have ha2 : a ∉ ex ++ [x] := by simpa using ha
    simp only [List.mem_append] at ha2
    push_neg at ha2
    simp [ha2.1]
  rcases Nat.lt_or_ge ((((to_ids g).dedup.filter (fun t => !(ex ++ [x]).contains t))).length)
      ((((to_ids g).dedup.filter (fun t => !ex.contains t))).length) with hlt | hge
  · exact hlt
  · exfalso
    have heq := hsub.eq_of_length (Nat.le_antisymm hsub.length_le hge)
    have hnx2 : x ∉ ex := by simpa using hnx
    have hx2 : x ∈ (to_ids g).dedup.filter (fun t => !ex.contains t) :=
      List.mem_filter.2 ⟨List.mem_dedup.2 hx, by simp [hnx2]⟩
    rw [← heq] at hx2
    have := (List.mem_filter.1 hx2).2
    simp at this

theorem chain_loop_explored_ext
    {rec : CallEdge → List Nat → Nat → Option (List CallEdge × List Nat × Nat)}
    (hrec : ∀ e ex d r, rec e ex d = some r → ∃ t, r.2.1 = ex ++ t) (frm : CallEdge) :
    ∀ (es res : List CallEdge) (ex : List Nat) (md d : Nat)
      (r : List CallEdge × List Nat × Nat),
      chain_loop rec frm es res ex md d = some r → ∃ t, r.2.1 = ex ++ t := by
  intro es
  induction es with
  | nil =>
    intro res ex md d r hr
    simp only [chain_loop, Option.some.injEq] at hr
    exact ⟨[], by simp [← hr]⟩
  | cons e rest ih =>
    intro res ex md d r hr
    simp only [chain_loop] at hr
    by_cases h1 : (e.is_error && e.propagates) = true
    · rw [if_pos h1] at hr
      by_cases h2 : ((!ex.contains e.to && !res.any fun x => x.peq e) && !e.peq frm) = true
      · rw [if_pos h2] at hr
        cases hrec2 : rec e ex (d + 1) with
        | none => rw [hrec2] at hr; simp at hr
        | some v =>
          obtain ⟨chain, ex2, dd⟩ := v
          rw [hrec2] at hr
          obtain ⟨t1, ht1⟩ := hrec e ex (d + 1) _ hrec2
          obtain ⟨t2, ht2⟩ := ih _ _ _ _ _ hr
          exact ⟨t1 ++ t2, by simp at ht1; simp [ht2, ht1]⟩
      · rw [if_neg h2] at hr
        exact ih _ _ _ _ _ hr
    · rw [if_neg h1] at hr
      exact ih _ _ _ _ _ hr

theorem get_chain_explored_ext (g : CallGraph) :
    ∀ (fuel : Nat) (frm : CallEdge) (ex : List Nat) (d : Nat)
      (r : List CallEdge × List Nat × Nat),
      get_chain_from_edge g fuel frm ex d = some r → ∃ t, r.2.1 = ex ++ t := by
  intro fuel
  induction fuel with
  | zero => intro frm ex d r hr; simp [get_chain_from_edge] at hr
  | succ fuel ih =>
    intro frm ex d r hr
    simp only [get_chain_from_edge] at hr
    obtain ⟨t, ht⟩ := chain_loop_explored_ext (fun e ex2 d2 r2 h2 => ih e ex2 d2 r2 h2) frm
      _ _ _ _ _ _ hr
    exact ⟨[frm.to] ++ t, by simp [ht]⟩

theorem chain_loop_suff (g : CallGraph) (f : Nat)
    {rec : CallEdge → List Nat → Nat → Option (List CallEdge × List Nat × Nat)}
    (hrecS : ∀ e ex d, e.to ∈ to_ids g → ex.contains e.to = false →
      unexplored_count g ex ≤ f → (rec e ex d).isSome = true)
    (hrecE : ∀ e ex d r, rec e ex d = some r → ∃ t, r.2.1 = ex ++ t)
    (frm : CallEdge) :
    ∀ (es res : List CallEdge) (ex : List Nat) (md d : Nat),
      (∀ e ∈ es, e ∈ g.edges) → unexplored_count g ex ≤ f →
      (chain_loop rec frm es res ex md d).isSome = true := by
  intro es
  induction es with
  | nil => intro res ex md d _ _; simp [chain_loop]
  | cons e rest ih =>
    intro res ex md d hes hex
    simp only [chain_loop]
    by_cases h1 : (e.is_error && e.propagates) = true
    · rw [if_pos h1]
      by_cases h2 : ((!ex.contains e.to && !res.any fun x => x.peq e) && !e.peq frm) = true
      · rw [if_pos h2]
        have hcont : ex.contains e.to = false := by
          have := h2
          simp only [Bool.and_eq_true, Bool.not_eq_true'] at this
          exact this.1.1
        have hto : e.to ∈ to_ids g :=
          List.mem_map.2 ⟨e, hes e (by simp), rfl⟩
        have hsome := hrecS e ex (d + 1) hto hcont hex
        cases hrec2 : rec e ex (d + 1) with
        | none => rw [hrec2] at hsome; simp at hsome
        | some v =>
          obtain ⟨chain, ex2, dd⟩ := v
          obtain ⟨t, ht⟩ := hrecE e ex (d + 1) _ hrec2
          simp only at ht
          subst ht
          exact ih _ _ _ _ (fun x hx => hes x (by simp [hx]))
            (le_trans (unexplored_count_append_le g ex t) hex)
      · rw [if_neg h2]
        exact ih _ _ _ _ (fun x hx => hes x (by simp [hx])) hex
    · rw [if_neg h1]
      exact ih _ _ _ _ (fun x hx => hes x (by simp [hx])) hex

theorem get_chain_suff (g : CallGraph) :
    ∀ (fuel : Nat) (frm : CallEdge) (ex : List Nat) (d : Nat),
      frm.to ∈ to_ids g → ex.contains frm.to = false →
      unexplored_count g ex ≤ fuel →
      (get_chain_from_edge g fuel frm ex d).isSome = true := by
  intro fuel
  induction fuel with
  | zero =>
    intro frm ex d hto hcont hcnt
    exfalso
    have hcont2 : frm.to ∉ ex := by simpa using hcont
    have hx : frm.to ∈ (to_ids g).dedup.filter (fun t => !ex.contains t) :=
      List.mem_filter.2 ⟨List.mem_dedup.2 hto, by simp [hcont2]⟩
    have : 0 < unexplored_count g ex := List.length_pos_of_mem hx
    omega
  | succ fuel ih =>
    intro frm ex d hto hcont hcnt
    simp only [get_chain_from_edge]
    apply chain_loop_suff g fuel (fun e ex2 d2 => ih e ex2 d2)
      (fun e ex2 d2 r2 h2 => get_chain_explored_ext g fuel e ex2 d2 r2 h2) frm
    · intro e he
      exact List.mem_of_mem_filter he
    · have := unexplored_count_push_lt g ex frm.to hto hcont
      omega

/-- C3: chain extraction terminates on every finite call graph — whenever the
fuel is at least the number of unexplored edge-target nodes,
`get_chain_from_edge` succeeds (first conjunct; together with
`get_chain_from_edge_stable` this is termination of the Rust recursion, which
tracks in `explored` the target nodes already visited and never re-enters
one).  On the concrete cycle `a→b→a` of `graphCyc`, reached from the start
edge `x→a`, extraction at any fuel of at least 2 returns exactly the chain
`[a→b, b→a]` with depth 2 (second conjunct), and the closing edge `b→a` back
to the already-visited node `a` occurs in it exactly once (third conjunct). -/
theorem cycle_safety :
    (∀ (g : CallGraph) (frm : CallEdge) (ex : List Nat) (d fuel : Nat),
        frm.to ∈ to_ids g → ex.contains frm.to = false →
        unexplored_count g ex ≤ fuel →
        (get_chain_from_edge g fuel frm ex d).isSome = true) ∧
    (∀ n, get_chain_from_edge graphCyc (2 + n) startCyc [] 1 =
        some ([⟨1, 2, 11, some "E", true, true⟩, closingCyc], [1, 2], 2)) ∧
    (get_chain_from_edge graphCyc 2 startCyc [] 1).map
        (fun r => r.1.countP (fun x => x.peq closingCyc)) = some 1 := by
  refine ⟨fun g frm ex d fuel hto hcont hcnt => get_chain_suff g fuel frm ex d hto hcont hcnt,
    fun n => get_chain_from_edge_stable graphCyc 2 startCyc [] 1 _ (by decide) n,
    by decide⟩

/-- Witness for C3's general termination conjunct, at the concrete cycle
graph: the hypotheses hold for the start edge with empty `explored` and
fuel 2, and extraction succeeds. -/
theorem cycle_safety_witness :
    startCyc.to ∈ to_ids graphCyc ∧ ([] : List Nat).contains startCyc.to = false ∧
    unexplored_count graphCyc [] ≤ 2 ∧
    (get_chain_from_edge graphCyc 2 startCyc [] 1).isSome = true :=
  ⟨by decide, by decide, by decide,
    cycle_safety.1 graphCyc startCyc [] 1 2 (by decide) (by decide) (by decide)⟩

theorem ids_ok_add_node {g : CallGraph} (hg : ids_ok g) (l : String) (k : CallNodeKind) :
    ids_ok (g.add_node l k).2 := by
  intro i h
  have h2 := h
  simp only [CallGraph.add_node, List.length_append, List.length_cons, List.length_nil] at h2
  by_cases hi : i < g.nodes.length
  · have : (g.add_node l k).2.nodes.get ⟨i, h⟩ = g.nodes.get ⟨i, hi⟩ := by
      simp only [List.get_eq_getElem, CallGraph.add_node]
      rw [List.getElem_append_left]
    rw [this]
    exact hg i hi
  · have hieq : i = g.nodes.length := by omega
    subst hieq
    simp [List.get_eq_getElem, CallGraph.add_node, CallNode.new]

theorem chain_ids_ok_add_node {g : ChainGraph} (hg : chain_ids_ok g) (l : String) :
    chain_ids_ok (g.add_node l).2 := by
  intro i h
  have h2 := h
  simp only [ChainGraph.add_node, List.length_append, List.length_cons, List.length_nil] at h2
  by_cases hi : i < g.nodes.length
  · have : (g.add_node l).2.nodes.get ⟨i, h⟩ = g.nodes.get ⟨i, hi⟩ := by
      simp only [List.get_eq_getElem, ChainGraph.add_node]
      rw [List.getElem_append_left]
    rw [this]
    exact hg i hi
  · have hieq : i = g.nodes.length := by omega
    subst hieq
    simp [List.get_eq_getElem, ChainGraph.add_node, ChainNode.new]

theorem ids_ok_foldl (s : String) (ops : List (String × CallNodeKind)) :
    ids_ok (ops.foldl (fun g p => (g.add_node p.1 p.2).2) (CallGraph.new s)) := by
  have hgen : ∀ (l : List (String × CallNodeKind)) (g : CallGraph), ids_ok g →
      ids_ok (l.foldl (fun g p => (g.add_node p.1 p.2).2) g) := by
    intro l
    induction l with
    | nil => intro g hg; exact hg
    | cons p rest ih => intro g hg; exact ih _ (ids_ok_add_node hg p.1 p.2)
  exact hgen ops (CallGraph.new s) (fun i h => by simp [CallGraph.new] at h)

theorem chain_ids_ok_foldl (s : String) (ops : List String) :
    chain_ids_ok (ops.foldl (fun g l => (g.add_node l).2) (ChainGraph.new s)) := by
  have hgen : ∀ (l : List String) (g : ChainGraph), chain_ids_ok g →
      chain_ids_ok (l.foldl (fun g l => (g.add_node l).2) g) := by
    intro l
    induction l with
    | nil => intro g hg; exact hg
    | cons p rest ih => intro g hg; exact ih _ (chain_ids_ok_add_node hg p)
  exact hgen ops (ChainGraph.new s) (fun i h => by simp [ChainGraph.new] at h)

theorem chain_loop_edges_sub (g : CallGraph)
    {rec : CallEdge → List Nat → Nat → Option (List CallEdge × List Nat × Nat)}
    (hrec : ∀ e ex d r, rec e ex d = some r → ∀ c ∈ r.1, c ∈ g.edges) (frm : CallEdge) :
    ∀ (es res : List CallEdge) (ex : List Nat) (md d : Nat)
      (r : List CallEdge × List Nat × Nat),
      (∀ e ∈ es, e ∈ g.edges) → chain_loop rec frm es res ex md d = some r →
      ∀ c ∈ r.1, c ∈ res ∨ c ∈ g.edges := by
  intro es
  induction es with
  | nil =>
    intro res ex md d r _ hr c hc
    simp only [chain_loop, Option.some.injEq] at hr
    exact Or.inl (by rw [← hr] at hc; exact hc)
  | cons e rest ih =>
    intro res ex md d r hes hr c hc
    have hee : e ∈ g.edges := hes e (by simp)
    have hrest : ∀ x ∈ rest, x ∈ g.edges := fun x hx => hes x (by simp [hx])
    simp only [chain_loop] at hr
    by_cases h1 : (e.is_error && e.propagates) = true
    · rw [if_pos h1] at hr
      by_cases h2 : ((!ex.contains e.to && !res.any fun x => x.peq e) && !e.peq frm) = true
      · rw [if_pos h2] at hr
        cases hrec2 : rec e ex (d + 1) with
        | none => rw [hrec2] at hr; simp at hr
        | some v =>
          obtain ⟨chain, ex2, dd⟩ := v
          rw [hrec2] at hr
          rcases ih _ _ _ _ _ hrest hr c hc with hin | hin
          · simp only [List.append_assoc, List.mem_append] at hin
            rcases hin with hin | hin
            · exact Or.inl hin
            · rcases hin with hin | hin
              · simp only [List.mem_singleton] at hin
                exact Or.inr (hin ▸ hee)
              · exact Or.inr (hrec e ex (d + 1) _ hrec2 c hin)
          · exact Or.inr hin
      · rw [if_neg h2] at hr
        rcases ih _ _ _ _ _ hrest hr c hc with hin | hin
        · simp only [List.mem_append, List.mem_singleton] at hin
          rcases hin with hin | hin
          · exact Or.inl hin
          · exact Or.inr (hin ▸ hee)
        · exact Or.inr hin
    · rw [if_neg h1] at hr
      exact ih _ _ _ _ _ hrest hr c hc

theorem get_chain_edges_sub (g : CallGraph) :
    ∀ (fuel : Nat) (frm : CallEdge) (ex : List Nat) (d : Nat)
      (r : List CallEdge × List Nat × Nat),
      get_chain_from_edge g fuel frm ex d = some r → ∀ c ∈ r.1, c ∈ g.edges := by
  intro fuel
  induction fuel with
  | zero => intro frm ex d r hr; simp [get_chain_from_edge] at hr
  | succ fuel ih =>
    intro frm ex d r hr c hc
    simp only [get_chain_from_edge] at hr
    rcases chain_loop_edges_sub g (fun e ex2 d2 r2 h2 => ih e ex2 d2 r2 h2) frm
      _ _ _ _ _ _ (fun e he => List.mem_of_mem_filter he) hr c hc with hin | hin
    · simp at hin
    · exact hin

/-- C9: `add_node` of both graph types always assigns the new node an id equal
to its position, so after any sequence of `add_node` calls starting from an
empty graph every node's id is its index (conjuncts 1 and 3); `add_node`
returns that index, which is in bounds of the grown node vector (conjuncts 2
and 4); and for a call graph whose edges are in bounds, every edge the chain
extraction touches — the edges of the extracted chain plus the start edge —
has in-bounds `from` and `to` indices, so the `graph.nodes[call.from]` /
`graph.nodes[call.to]` lookups of `to_chains` are in bounds (conjunct 5). -/
theorem add_node_id_invariant :
    (∀ (s : String) (ops : List (String × CallNodeKind)),
        ids_ok (ops.foldl (fun g p => (g.add_node p.1 p.2).2) (CallGraph.new s))) ∧
    (∀ (g : CallGraph) (l : String) (k : CallNodeKind),
        (g.add_node l k).1 = g.nodes.length ∧
        (g.add_node l k).2.nodes.length = g.nodes.length + 1) ∧
    (∀ (s : String) (ops : List String),
        chain_ids_ok (ops.foldl (fun g l => (g.add_node l).2) (ChainGraph.new s))) ∧
    (∀ (g : ChainGraph) (l : String),
        (g.add_node l).1 = g.nodes.length ∧
        (g.add_node l).2.nodes.length = g.nodes.length + 1) ∧
    (∀ (g : CallGraph) (fuel : Nat) (frm : CallEdge) (ex : List Nat) (d : Nat)
        (r : List CallEdge × List Nat × Nat),
        edges_in_bounds g → frm ∈ g.edges →
        get_chain_from_edge g fuel frm ex d = some r →
        ∀ c ∈ r.1 ++ [frm], c.frm < g.nodes.length ∧ c.to < g.nodes.length) := by
  refine ⟨ids_ok_foldl, fun g l k => ⟨rfl, by simp [CallGraph.add_node]⟩,
    chain_ids_ok_foldl, fun g l => ⟨rfl, by simp [ChainGraph.add_node]⟩,
    fun g fuel frm ex d r hb hfrm hr c hc => ?_⟩
  rcases List.mem_append.1 hc with hin | hin
  · exact hb c (get_chain_edges_sub g fuel frm ex d r hr c hin)
  · simp only [List.mem_singleton] at hin
    exact hin ▸ hb frm hfrm

/-- Witness for C9's in-bounds conjunct at the concrete boundary graph:
its edges are in bounds, the start edge is a graph edge, extraction at fuel 2
succeeds, and both endpoints of every touched edge index the node vector. -/
theorem add_node_id_invariant_witness :
    edges_in_bounds graphC1 ∧
    (⟨0, 1, 10, some "E", false, true⟩ : CallEdge) ∈ graphC1.edges ∧
    get_chain_from_edge graphC1 2 ⟨0, 1, 10, some "E", false, true⟩ [] 1 =
      some ([⟨1, 2, 11, some "E", true, true⟩], [1, 2], 2) ∧
    (∀ c ∈ [(⟨1, 2, 11, some "E", true, true⟩ : CallEdge)] ++
        [(⟨0, 1, 10, some "E", false, true⟩ : CallEdge)],
      c.frm < graphC1.nodes.length ∧ c.to < graphC1.nodes.length) :=
  ⟨by decide, by decide, by decide,
    add_node_id_invariant.2.2.2.2 graphC1 2 ⟨0, 1, 10, some "E", false, true⟩ [] 1
      ([⟨1, 2, 11, some "E", true, true⟩], [1, 2], 2) (by decide) (by decide) (by decide)⟩

/-- C10: in the `dot::GraphWalk` implementation for `ChainGraph`, `source`
reads the node at the edge's `to` index and `target` the node at the edge's
`from` index — the reverse of the `CallGraph` implementation, whose `source`
reads `nodes[edge.from]` and `target` reads `nodes[edge.to]`. -/
theorem graph_walk_orientation :
    (∀ (g : ChainGraph) (e : ChainEdge),
        ChainGraph.source g e = g.nodes.getD e.to default ∧
        ChainGraph.target g e = g.nodes.getD e.frm default) ∧
    (∀ (g : CallGraph) (e : CallEdge),
        CallGraph.source g e = g.nodes.getD e.frm default ∧
        CallGraph.target g e = g.nodes.getD e.to default) :=
  ⟨fun _ _ => ⟨rfl, rfl⟩, fun _ _ => ⟨rfl, rfl⟩⟩

/-- Counterexample to C6: for `return i(j())` the call-discovery reports the
nested argument call to `j` (call id 5) with `propagates = true`, although it
is neither the direct scrutinee of a `?` desugaring nor itself the returned
expression — the claim requires `propagates = false` for it.  The `Ret`
branch of `get_function_calls_in_expression` re-pushes every call found
anywhere inside the returned expression with `propagates` forced to `true`. -/
theorem forwarding_detection_counterexample :
    get_function_calls_in_expression retNested =
      [⟨.nonLocalFn 200, 4, true, true⟩, ⟨.nonLocalFn 201, 5, true, true⟩] := by
  decide

/-- C6 (amended): the `propagates` flag of a discovered call is `true` iff the
call occurs anywhere inside the scrutinee of the `?`-operator's desugaring
(first conjunct), anywhere inside the operand of a `return` expression
(second conjunct), or anywhere inside the trailing tail expression of a
function body block (third conjunct, for a tail that is not the special
`DropTemps` wrapper) — including calls nested as arguments inside those
expressions; everywhere else the flag is `false` as produced.  In particular,
for `fn f() -> Result<(), E> [ g()?; h(); return i(); ]` the edge to `g` gets
`propagates = true`, the edge to `h` gets `propagates = false`, and the edge
to `i` gets `propagates = true` (fourth conjunct). -/
theorem forwarding_detection :
    (∀ scrutinee arms, get_function_calls_in_expression (.matchE scrutinee arms .tryDesugar) =
        mark_propagates (get_function_calls_in_expression scrutinee)) ∧
    (∀ e, get_function_calls_in_expression (.ret (some e)) =
        mark_propagates (get_function_calls_in_expression e)) ∧
    (∀ stmts e, is_drop_temps e = false →
        get_function_calls_in_block (.mk stmts (some e)) true =
          mark_propagates (get_function_calls_in_expression e) ++ get_calls_in_stmts stmts) ∧
    get_function_calls_in_block blockC6 true =
      [⟨.nonLocalFn 100, 1, true, true⟩, ⟨.nonLocalFn 101, 2, true, false⟩,
       ⟨.nonLocalFn 102, 3, true, true⟩] := by
  refine ⟨fun scrutinee arms => by simp [get_function_calls_in_expression],
    fun e => by simp [get_function_calls_in_expression],
    fun stmts e h => ?_, by decide⟩
  cases e <;> first
    | simp [get_function_calls_in_block]
    | simp [is_drop_temps] at h

/-- Witness for C6's tail-expression conjunct: a concrete function block
whose tail is a plain call. -/
theorem forwarding_detection_witness :
    is_drop_temps (.call (some (.nonLocalFn 300)) none 7 []) = false ∧
    get_function_calls_in_block (.mk [] (some (.call (some (.nonLocalFn 300)) none 7 []))) true =
      mark_propagates
        (get_function_calls_in_expression (.call (some (.nonLocalFn 300)) none 7 [])) ++
      get_calls_in_stmts [] :=
  ⟨by decide, forwarding_detection.2.2.1 [] (.call (some (.nonLocalFn 300)) none 7 []) (by decide)⟩

/-!
### Fuel monotonicity for construction
-/
theorem add_calls_from_block_mono (ctx : AnalysisCtx)
    {rec rec2 : Nat → Nat → CallGraph → Option CallGraph}
    (h : ∀ a b c r, rec a b c = some r → rec2 a b c = some r) (frm : Nat) :
    ∀ (calls : List FnCall) (g r : CallGraph),
      add_calls_from_block ctx rec frm calls g = some r →
      add_calls_from_block ctx rec2 frm calls g = some r := by
  intro calls
  induction calls with
  | nil => intro g r hr; simpa [add_calls_from_block] using hr
  | cons call rest ih =>
    intro g r hr
    obtain ⟨kind, cid, ae, pr⟩ := call
    cases kind with
    | localFn def_id hir_id =>
      simp only [add_calls_from_block] at hr ⊢
      cases hf : g.find_local_fn_node hir_id with
      | some node => simp only [hf] at hr ⊢; exact ih _ _ hr
      | none =>
        simp only [hf] at hr ⊢
        split at hr
        · simp at hr
        · next g4 heq =>
            rw [h _ _ _ _ heq]
            exact ih _ _ hr
    | nonLocalFn def_id =>
      simp only [add_calls_from_block] at hr ⊢
      cases hf : g.find_non_local_fn_node def_id with
      | some node => simp only [hf] at hr ⊢; exact ih _ _ hr
      | none => simp only [hf] at hr ⊢; exact ih _ _ hr

theorem add_calls_from_function_mono_succ (ctx : AnalysisCtx) :
    ∀ (fuel from_node fn_id : Nat) (g r : CallGraph),
      add_calls_from_function ctx fuel from_node fn_id g = some r →
      add_calls_from_function ctx (fuel + 1) from_node fn_id g = some r := by
  intro fuel
  induction fuel with
  | zero => intro from_node fn_id g r hr; simp [add_calls_from_function] at hr
  | succ fuel ih =>
    intro from_node fn_id g r hr
    simp only [add_calls_from_function] at hr ⊢
    cases hb : ctx.block_of fn_id with
    | none => rw [hb] at hr; exact hr
    | some block =>
      rw [hb] at hr
      exact add_calls_from_block_mono ctx (fun a b c r2 h2 => ih a b c r2 h2) from_node
        _ _ _ hr

theorem create_call_graph_stable (ctx : AnalysisCtx) (fuel root_def_id root_hir_id : Nat)
    (r : CallGraph) (h : create_call_graph_from_root ctx fuel root_def_id root_hir_id = some r) :
    ∀ n, create_call_graph_from_root ctx (fuel + n) root_def_id root_hir_id = some r := by
  intro n
  induction n with
  | zero => exact h
  | succ n ih =>
    simp only [create_call_graph_from_root] at ih ⊢
    exact add_calls_from_function_mono_succ ctx (fuel + n) _ _ _ _ ih

/-- C4: call-graph construction terminates on direct self-recursion and on
mutual recursion — the result is defined and constant for every fuel beyond
the nesting depth, because the node-reuse check stops re-traversal — and
produces for `main calling itself` exactly the node `main` with one self
edge, and for `main → f ⇄ g` exactly the nodes `main`, `f`, `g` with one
edge per direct call. -/
theorem termination_on_recursion :
    (∀ n, create_call_graph_from_root ctxSelf (2 + n) 0 0 = some graphSelf) ∧
    graphSelf.nodes.map CallNode.label = ["main"] ∧
    graphSelf.edges = [⟨0, 0, 100, none, false, false⟩] ∧
    (∀ n, create_call_graph_from_root ctxMut (4 + n) 0 0 = some graphMut) ∧
    graphMut.nodes.map CallNode.label = ["main", "f", "g"] ∧
    graphMut.edges = [⟨0, 1, 100, none, false, false⟩, ⟨1, 2, 101, none, false, false⟩,
      ⟨2, 1, 102, none, false, false⟩] :=
  ⟨fun n => create_call_graph_stable ctxSelf 2 0 0 graphSelf (by decide) n,
    by decide, by decide,
    fun n => create_call_graph_stable ctxMut 4 0 0 graphMut (by decide) n,
    by decide, by decide⟩

theorem find_local_none_fresh {g : CallGraph} {h : HirId}
    (hf : g.find_local_fn_node h = none) (d : DefId) :
    ∀ node ∈ g.nodes, same_identity node.kind (.localFn d h) = false := by
  intro node hn
  have hp := List.find?_eq_none.1 hf node hn
  cases hk : node.kind with
  | localFn d2 h2 =>
    rw [hk] at hp
    simp only at hp
    simp [same_identity, Bool.not_eq_true] at hp ⊢
    exact hp
  | nonLocalFn d2 => simp [same_identity, hk]

theorem find_non_local_none_fresh {g : CallGraph} {d : DefId}
    (hf : g.find_non_local_fn_node d = none) :
    ∀ node ∈ g.nodes, same_identity node.kind (.nonLocalFn d) = false := by
  intro node hn
  have hp := List.find?_eq_none.1 hf node hn
  cases hk : node.kind with
  | localFn d2 h2 => simp [same_identity, hk]
  | nonLocalFn d2 =>
    rw [hk] at hp
    simp only at hp
    simp [same_identity, Bool.not_eq_true] at hp ⊢
    exact hp

theorem no_dup_add_edge {g : CallGraph} (hd : no_duplicate_nodes g) (e : CallEdge) :
    no_duplicate_nodes (g.add_edge e) := hd

theorem no_dup_add_edge_ite {g : CallGraph} (hd : no_duplicate_nodes g) (b : Bool)
    (e : CallEdge) : no_duplicate_nodes (if b then g.add_edge e else g) := by
  cases b <;> simpa using hd

theorem no_dup_add_node {g : CallGraph} (hd : no_duplicate_nodes g) {k : CallNodeKind}
    (hfresh : ∀ node ∈ g.nodes, same_identity node.kind k = false) (l : String) :
    no_duplicate_nodes (g.add_node l k).2 := by
  simp only [no_duplicate_nodes, CallGraph.add_node] at hd ⊢
  rw [List.pairwise_append]
  refine ⟨hd, by simp, fun a ha b hb => ?_⟩
  simp only [List.mem_singleton] at hb
  subst hb
  exact hfresh a ha

theorem add_calls_from_block_preserves (ctx : AnalysisCtx)
    {rec : Nat → Nat → CallGraph → Option CallGraph}
    (hrec : ∀ a b g g2, no_duplicate_nodes g → rec a b g = some g2 → no_duplicate_nodes g2)
    (frm : Nat) :
    ∀ (calls : List FnCall) (g g2 : CallGraph), no_duplicate_nodes g →
      add_calls_from_block ctx rec frm calls g = some g2 → no_duplicate_nodes g2 := by
  intro calls
  induction calls with
  | nil =>
    intro g g2 hd hr
    simp only [add_calls_from_block, Option.some.injEq] at hr
    exact hr ▸ hd
  | cons call rest ih =>
    intro g g2 hd hr
    obtain ⟨kind, cid, ae, pr⟩ := call
    cases kind with
    | localFn def_id hir_id =>
      simp only [add_calls_from_block] at hr
      cases hf : g.find_local_fn_node hir_id with
      | some node =>
        simp only [hf] at hr
        exact ih _ _ (no_dup_add_edge_ite hd ae _) hr
      | none =>
        simp only [hf] at hr
        have hd3 : no_duplicate_nodes
            (if ae then
              (g.add_node (ctx.def_path_str def_id) (.localFn def_id hir_id)).2.add_edge
                (CallEdge.new frm (g.add_node (ctx.def_path_str def_id)
                  (.localFn def_id hir_id)).1 cid pr)
             else (g.add_node (ctx.def_path_str def_id) (.localFn def_id hir_id)).2) :=
          no_dup_add_edge_ite (no_dup_add_node hd (find_local_none_fresh hf def_id) _) ae _
        split at hr
        · simp at hr
        · next g4 heq => exact ih _ _ (hrec _ _ _ _ hd3 heq) hr
    | nonLocalFn def_id =>
      simp only [add_calls_from_block] at hr
      cases hf : g.find_non_local_fn_node def_id with
      | some node =>
        simp only [hf] at hr
        exact ih _ _ (no_dup_add_edge_ite hd ae _) hr
      | none =>
        simp only [hf] at hr
        exact ih _ _
          (no_dup_add_edge_ite (no_dup_add_node hd (find_non_local_none_fresh hf) _) ae _) hr

theorem add_calls_from_function_preserves (ctx : AnalysisCtx) :
    ∀ (fuel from_node fn_id : Nat) (g g2 : CallGraph), no_duplicate_nodes g →
      add_calls_from_function ctx fuel from_node fn_id g = some g2 →
      no_duplicate_nodes g2 := by
  intro fuel
  induction fuel with
  | zero => intro a b g g2 _ hr; simp [add_calls_from_function] at hr
  | succ fuel ih =>
    intro a b g g2 hd hr
    simp only [add_calls_from_function] at hr
    cases hb : ctx.block_of b with
    | none =>
      rw [hb] at hr
      simp only [Option.some.injEq] at hr
      exact hr ▸ hd
    | some block =>
      rw [hb] at hr
      exact add_calls_from_block_preserves ctx
        (fun a2 b2 g3 g4 hd3 h3 => ih a2 b2 g3 g4 hd3 h3) a _ _ _ hd hr

/-- C5: the no-duplicate-nodes invariant — at most one Function Node per
function identity (same `LocalFn` body reference, or same `NonLocalFn`
global reference) — is preserved by every step of `add_calls_from_function`
(first conjunct), and every graph `create_call_graph_from_root` produces
satisfies it (second conjunct): two call sites resolving to the same identity
always reuse one node. -/
theorem no_duplicate_nodes_invariant :
    (∀ (ctx : AnalysisCtx) (fuel from_node fn_id : Nat) (g g2 : CallGraph),
        no_duplicate_nodes g →
        add_calls_from_function ctx fuel from_node fn_id g = some g2 →
        no_duplicate_nodes g2) ∧
    (∀ (ctx : AnalysisCtx) (fuel root_def_id root_hir_id : Nat) (g : CallGraph),
        create_call_graph_from_root ctx fuel root_def_id root_hir_id = some g →
        no_duplicate_nodes g) := by
  refine ⟨add_calls_from_function_preserves, fun ctx fuel rd rh g hr => ?_⟩
  simp only [create_call_graph_from_root] at hr
  exact add_calls_from_function_preserves ctx fuel _ rh _ g
    (by simp [no_duplicate_nodes, CallGraph.new, CallGraph.add_node]) hr

/-- Witness for C5 at the mutual-recursion program: construction succeeds and
the resulting graph has pairwise distinct node identities. -/
theorem no_duplicate_nodes_invariant_witness :
    create_call_graph_from_root ctxMut 4 0 0 = some graphMut ∧
    no_duplicate_nodes graphMut :=
  ⟨by decide, no_duplicate_nodes_invariant.2 ctxMut 4 0 0 graphMut (by decide)⟩

/-- C7: the classifier reports `is_error = true` with the label equal to the
result's error type argument for return types that are (or alias-expand to)
`std::result::Result` — including a generic error argument — and reports
`is_error = false` with the full printed type as the label for an
optional-value type and for a plain numeric type. -/
theorem result_type_recognition :
    get_error_or_type tyResultUnit = ("MyError".toList, true) ∧
    get_error_or_type tyResultAlias = ("std::io::Error".toList, true) ∧
    get_error_or_type tyResultNested = ("MyErr<u32>".toList, true) ∧
    get_error_or_type tyOption = ("std::option::Option<u32>".toList, false) ∧
    get_error_or_type tyU32 = ("u32".toList, false) := by
  decide

theorem getD_append_cons {α : Type} [Inhabited α] (l l2 : List α) (a : α) :
    (l ++ a :: l2).getD l.length default = a := by
  induction l with
  | nil => simp
  | cons x xs ih => simpa using ih

theorem eraseIdx_append_cons {α : Type} (l l2 : List α) (a : α) :
    (l ++ a :: l2).eraseIdx l.length = l ++ l2 := by
  induction l with
  | nil => simp [List.eraseIdx]
  | cons x xs ih => simp [List.eraseIdx, ih]

theorem remove_redundant_loop_eq_filter (nodes : List CallNode) :
    ∀ (l1 l2 : List CallEdge),
      remove_redundant_loop nodes (l1 ++ l2) l1.length =
        l1.filter (fun e => !edge_removed nodes e) ++ l2 := by
  intro l1
  induction l1 using List.reverseRecOn with
  | nil => intro l2; simp [remove_redundant_loop]
  | append_singleton l a ih =>
    intro l2
    have hassoc : l ++ [a] ++ l2 = l ++ a :: l2 := by simp
    rw [show (l ++ [a]).length = l.length + 1 by simp, hassoc]
    simp only [remove_redundant_loop]
    rw [getD_append_cons]
    by_cases hrem : edge_removed nodes a = true
    · rw [if_pos hrem, eraseIdx_append_cons, ih l2]
      simp [List.filter_append, hrem]
    · rw [if_neg hrem, ih (a :: l2)]
      simp only [Bool.not_eq_true] at hrem
      simp [List.filter_append, hrem]

/-- C8 (amended): the annotation pass sets each edge's `ty` (and nothing
else; `is_error` is not touched by `analyze`), and the filter pass that
follows it keeps exactly the annotated edges whose type is known and either
names `std::result::Result` or targets a panicking node, in their original
order (first conjunct); the node vector is untouched (second conjunct); and
every surviving edge descends from a builder-created edge with `from`, `to`,
`propagates` and `is_error` unchanged and `ty` set to its call's return type
(third conjunct). -/
theorem edge_lifecycle :
    ∀ (g : CallGraph) (ret_ty : HirId → Option String),
      (analyze_annotate_and_filter g ret_ty).edges =
        (g.edges.map (annotate_edge ret_ty)).filter
          (fun e => !edge_removed g.nodes e) ∧
      (analyze_annotate_and_filter g ret_ty).nodes = g.nodes ∧
      (∀ e ∈ (analyze_annotate_and_filter g ret_ty).edges, ∃ e0 ∈ g.edges,
        e.frm = e0.frm ∧ e.to = e0.to ∧ e.propagates = e0.propagates ∧
        e.is_error = e0.is_error ∧ e.ty = ret_ty e0.call_id) := by
  intro g ret_ty
  have hmain : (analyze_annotate_and_filter g ret_ty).edges =
      (g.edges.map (annotate_edge ret_ty)).filter
        (fun e => !edge_removed g.nodes e) := by
    show remove_redundant_loop g.nodes (g.edges.map (annotate_edge ret_ty))
        (g.edges.map (annotate_edge ret_ty)).length = _
    have := remove_redundant_loop_eq_filter g.nodes (g.edges.map (annotate_edge ret_ty)) []
    simpa using this
  refine ⟨hmain, rfl, fun e he => ?_⟩
  rw [hmain] at he
  have hmem := List.mem_of_mem_filter he
  obtain ⟨e0, he0, heq⟩ := List.mem_map.1 hmem
  exact ⟨e0, he0, by rw [← heq]; rfl, by rw [← heq]; rfl, by rw [← heq]; rfl,
    by rw [← heq]; rfl, by rw [← heq]; rfl⟩

/-- Witness for C8's amended statement at a concrete graph and return-type
oracle. -/
theorem edge_lifecycle_witness :
    (analyze_annotate_and_filter graphSelf (fun _ => some "std::result::Result<(), E>")).edges =
      (graphSelf.edges.map (annotate_edge (fun _ => some "std::result::Result<(), E>"))).filter
        (fun e => !edge_removed graphSelf.nodes e) ∧
    (analyze_annotate_and_filter graphSelf (fun _ => some "std::result::Result<(), E>")).nodes =
      graphSelf.nodes ∧
    (∀ e ∈ (analyze_annotate_and_filter graphSelf
        (fun _ => some "std::result::Result<(), E>")).edges, ∃ e0 ∈ graphSelf.edges,
      e.frm = e0.frm ∧ e.to = e0.to ∧ e.propagates = e0.propagates ∧
      e.is_error = e0.is_error ∧ e.ty = some "std::result::Result<(), E>") :=
  edge_lifecycle graphSelf (fun _ => some "std::result::Result<(), E>")

/-- Counterexample to C8 as stated: the edge list of the finished annotated
graph does **not** contain every edge the builder created — `analyze` removes
edges after annotating them.  For `graphC8` (one edge, return type unknown)
the filter pass deletes the edge and the finished graph has none. -/
theorem edge_lifecycle_counterexample :
    (analyze_annotate_and_filter graphC8 (fun _ => none)).edges = [] ∧
    graphC8.edges ≠ [] := by
  refine ⟨by decide, by decide⟩

end StaticAnalyzer
